import Mathlib

set_option autoImplicit false

/-!
Shallow embedding of the mod-synchronization pipeline of
`arma3modtools.py` and `a3update.py`, together with proofs about the
behaviour the specification claims for it.
-/

/-- Models Python `str.lower()` on a single character, restricted to the
ASCII fragment (all names handled by the pipeline are ASCII). -/
def pyLowerChar (c : Char) : Char :=
  if 65 ≤ c.toNat ∧ c.toNat ≤ 90 then Char.ofNat (c.toNat + 32) else c

/-- Models Python `str.lower()` (ASCII fragment). -/
def pyLower (s : String) : String :=
  ⟨s.data.map pyLowerChar⟩

/-- One entry of the mod registry built by `mod_dictionary_builder`: the
workshop key, the derived stable short name (`param_name`) and the stable
short names of the declared dependencies. -/
structure ModEntry where
  key : String
  param_name : String
  dependencies : List String
deriving Repr, DecidableEq

/-- Directed graph with insertion-ordered node and edge lists, modelling
the `networkx.DiGraph` used by `dependency_sort`. -/
structure DepGraph where
  nodes : List String
  edges : List (String × String)
deriving Repr, DecidableEq

/-- Models `DiGraph.add_node`: a node already present is ignored. -/
def addNode (g : DepGraph) (n : String) : DepGraph :=
  if n ∈ g.nodes then g else { g with nodes := g.nodes ++ [n] }

/-- Models `DiGraph.add_edge`: missing endpoints are added as nodes and a
duplicate edge is ignored. -/
def addEdge (g : DepGraph) (u v : String) : DepGraph :=
  if (u, v) ∈ (addNode (addNode g u) v).edges then addNode (addNode g u) v
  else { addNode (addNode g u) v with
         edges := (addNode (addNode g u) v).edges ++ [(u, v)] }

/-- Models the body of the registry loop of `dependency_sort`
(`arma3modtools.py` lines 379-385): add the entry's stable name as a node,
then each dependency as a node with an edge dependency → dependent. -/
def addEntry (g : DepGraph) (e : ModEntry) : DepGraph :=
  e.dependencies.foldl (fun g2 dep => addEdge (addNode g2 dep) dep e.param_name)
    (addNode g e.param_name)

/-- Models the graph construction of `dependency_sort` over the whole
registry (dict iteration order = insertion order, modelled as a list). -/
def buildGraph (d : List ModEntry) : DepGraph :=
  d.foldl addEntry ⟨[], []⟩

/-- The node `n` has no incoming edge whose source is still in
`remaining` (in-degree zero in the induced subgraph). -/
def noIncoming (edges : List (String × String)) (remaining : List String)
    (n : String) : Bool :=
  edges.all (fun p => !(p.2 == n && remaining.contains p.1))

/-- Kahn's algorithm, modelling `networkx.topological_sort`: repeatedly
emit the first remaining node of in-degree zero; `none` models the
`NetworkXUnfeasible` exception raised on a cyclic graph. The fuel is
initially the number of nodes, which bounds the number of emissions. -/
def kahnAux (edges : List (String × String)) : Nat → List String → Option (List String)
  | _, [] => some []
  | 0, _ :: _ => none
  | fuel + 1, r :: rs =>
    match (r :: rs).find? (noIncoming edges (r :: rs)) with
    | none => none
    | some n => (kahnAux edges fuel ((r :: rs).erase n)).map (n :: ·)

/-- Models `list(nx.topological_sort(graph))`, with `none` standing for
the `NetworkXUnfeasible` exception. -/
def kahn (g : DepGraph) : Option (List String) :=
  kahnAux g.edges g.nodes.length g.nodes

/-- Models lines 387-392 of `dependency_sort`: render the sorted node list
into the load-order string, prefixing each name with the relative mods
path and separating successive items with a semicolon. -/
def renderLoadOrder : List String → String
  | [] => ""
  | x :: xs => xs.foldl (fun acc m => acc ++ ";" ++ ("mods/" ++ m)) ("mods/" ++ x)

/-- Result of `dependency_sort` at the list level, before rendering. -/
def dependency_sort_list (d : List ModEntry) : Option (List String) :=
  kahn (buildGraph d)

/-- Models `dependency_sort`; `Except.error` stands for the uncaught
`networkx.NetworkXUnfeasible` exception on a cyclic dependency graph. -/
def dependency_sort (d : List ModEntry) : Except String String :=
  match dependency_sort_list d with
  | none => .error "NetworkXUnfeasible: Graph contains a cycle"
  | some l => .ok (renderLoadOrder l)

/-- Reachability along one or more edges of the dependency graph. -/
inductive Reaches (edges : List (String × String)) : String → String → Prop
  | single {a b : String} : (a, b) ∈ edges → Reaches edges a b
  | cons {a b c : String} : (a, b) ∈ edges → Reaches edges b c → Reaches edges a c

/-- The dependency graph is acyclic: no node reaches itself. -/
def Acyclic (edges : List (String × String)) : Prop :=
  ∀ a, ¬ Reaches edges a a

/-- Result of fetching and parsing the changelog page for one mod:
`netError` models a timeout or URLError raised by urllib; `page t` models
a fetched page whose announcement timestamp parsed to `t`; `page none`
models a page without a parseable announcement block. -/
inductive Fetched where
  | netError : Fetched
  | page : Option Nat → Fetched

/-- Models `needs_update` of `arma3modtools.py` (lines 170-196).
Timestamps are Unix seconds, so `datetime` comparison coincides with
`Nat` comparison. A network error is caught, logged and falls through to
the final `return True`. On a page without a parseable announcement
block, `soup.find(...)` is `None` and the `.p` access raises an
`AttributeError` that no handler catches, modelled by `Except.error`. -/
def needs_update (dirExists : Bool) (fetch : Fetched) (ctime : Nat) : Except String Bool :=
  if dirExists then
    match fetch with
    | .netError => .ok true
    | .page (some updated) => .ok (decide (updated ≥ ctime))
    | .page none => .error "AttributeError: NoneType object has no attribute p"
  else .ok true

/-- Models `mod_needs_update` of `a3update.py` (lines 59-71). There is no
exception handler at all, so a network error propagates (`Except.error`);
a page whose announcement pattern does not match falls through to the
final `return False`, as does a missing local directory. -/
def mod_needs_update (dirExists : Bool) (fetch : Fetched) (ctime : Nat) : Except String Bool :=
  if dirExists then
    match fetch with
    | .netError => .error "URLError"
    | .page (some updated) => .ok (decide (updated ≥ ctime))
    | .page none => .ok false
  else .ok false

/-- Models Python `content.split(' ')` on the character list: split at
every single space, keeping empty fragments. -/
def pySplitSpaceAux : List Char → List Char → List (List Char)
  | [], acc => [acc.reverse]
  | c :: cs, acc =>
    if c = ' ' then acc.reverse :: pySplitSpaceAux cs []
    else pySplitSpaceAux cs (c :: acc)

/-- Models Python `content.split(' ')`. -/
def pySplitSpace (s : String) : List String :=
  (pySplitSpaceAux s.data []).map fun l => ⟨l⟩

/-- Models the Python slice `s[:-2]`: drop the last two characters. -/
def pyDropTwo (s : String) : String := ⟨s.data.dropLast.dropLast⟩

/-- Models `s.endswith` applied to a one-character newline suffix. -/
def endsWithNewline (s : String) : Bool := s.data.getLast? == some '\n'

/-- Models Python str.startswith, as a structural test on character
lists. -/
def pyStartsWith (pre t : String) : Bool :=
  pre.data.isPrefixOf t.data

/-- Models lines 408-410 of `write_start_up_script`: the enumerate loop
overwrites EVERY token that begins with the managed prefix, i.e. a map
over the token list. -/
def replaceModParams (tokens : List String) (p : String) : List String :=
  tokens.map fun t => if pyStartsWith "-mod=" t then p else t

/-- Models lines 412-413 of `write_start_up_script`: when the final token
ends with a newline, its LAST TWO characters are cut (the source slices
with -2 even though only one newline character was matched). -/
def fixLastToken (tokens : List String) : List String :=
  match tokens.getLast? with
  | none => tokens
  | some lst =>
    if endsWithNewline lst then tokens.dropLast ++ [pyDropTwo lst] else tokens

/-- Models lines 407-414 of `write_start_up_script`: replace every token
beginning with the managed prefix, or, when there is none, append the
parameter after trimming a trailing newline from the last token. -/
def updateParams (tokens : List String) (p : String) : List String :=
  if tokens.any (fun t => pyStartsWith "-mod=" t) then replaceModParams tokens p
  else fixLastToken tokens ++ [p]

/-- Models the write loop of lines 415-420: each token whose VALUE equals
the first token is written bare, every other token is written with a
leading space (the source compares by value, not by position). -/
def renderParams (tokens : List String) : String :=
  match tokens with
  | [] => ""
  | t0 :: _ => tokens.foldl (fun acc t => if t = t0 then acc ++ t else acc ++ " " ++ t) ""

/-- Models `write_start_up_script` (lines 396-427) as a pure function from
the previous script content (`none` when no script file exists) to the
content written back. -/
def write_start_up_script_content (load_order : String) (existing : Option String) : String :=
  let p := "-mod=\"" ++ load_order ++ "\""
  match existing with
  | some content => renderParams (updateParams (pySplitSpace content) p)
  | none =>
    "#!/bin/sh\n\necho \"Starting server PRESS CTRL+C to exit\"\n./arma3server " ++ p ++ "\n"

/-- Models lines 455-462 of `run_html_mod_update`: the topological sort
runs first and its uncaught cycle exception aborts the function, so the
startup script is only written when the sort succeeds; `.ok` carries the
content written to the script. -/
def sort_then_write (d : List ModEntry) (existing : Option String) : Except String String :=
  match dependency_sort d with
  | .error e => .error e
  | .ok p => .ok (write_start_up_script_content p existing)

/-- Models `to_install.pop(to_install.index(name))` guarded by the
membership test of line 231: remove the first occurrence of `d` when
present. -/
def pyListRemove (l : List String) (d : String) : List String :=
  if d ∈ l then l.eraseIdx (l.indexOf d) else l

/-- Models `check_installed_dirs` (lines 221-234) at the value level:
`dirs` is the listing of the workshop directory, and each listed name is
removed from the mod list. -/
def check_installed_dirs (dirs : List String) (modList : List String) : List String :=
  dirs.foldl pyListRemove modList

/-- A store of Python list objects: object ids mapped to contents. Used to
model the aliasing `to_install = mod_list` and the in-place `pop`. -/
def Store : Type := Nat → List String

/-- Models `check_installed_dirs` at the store level: the function
receives the id `r` of the caller's list object, mutates that object in
place and returns the id of the very same object. -/
def check_installed_dirs_ref (dirs : List String) (σ : Store) (r : Nat) : Store × Nat :=
  (fun i => if i = r then check_installed_dirs dirs (σ r) else σ i, r)

/-- State of the retry loop of `update_mods` (`arma3modtools.py` lines
289-295) after `k` polling checks: `dirsAt k` is the workshop-directory
listing at the k-th check (the external tool runs between the checks).
Because `check_installed_dirs` mutates `mods_to_update` in place and
returns it, its result is also the next loop state. -/
def armaRetryState (dirsAt : Nat → List String) (mods0 : List String) : Nat → List String
  | 0 => mods0
  | k + 1 => check_installed_dirs (dirsAt k) (armaRetryState dirsAt mods0 k)

/-- The `while True` loop of lines 289-295 exits if and only if some
polling check leaves no missing mods. -/
def armaRetryHalts (dirsAt : Nat → List String) (mods0 : List String) : Prop :=
  ∃ k, armaRetryState dirsAt mods0 (k + 1) = []

/-- Models the per-mod download loop of `a3update.update_mods` (lines
90-107): `present t` tells whether the mod directory exists when checked
after `t` steamcmd invocations; the result is the final value of `tries`,
which also counts the invocations made. The loop only iterates while
`tries` is below 10, so ten minus the current value bounds the remaining
iterations and serves as structural fuel. -/
def a3LoopTriesAux (present : Nat → Bool) : Nat → Nat → Nat
  | 0, t => t
  | d + 1, t =>
    if present t = false ∧ t < 10 then a3LoopTriesAux present d (t + 1) else t

/-- The download loop entered with `tries` equal to `t`. -/
def a3LoopTries (present : Nat → Bool) (t : Nat) : Nat :=
  a3LoopTriesAux present (10 - t) t

/-- Final `tries` value of the download loop started at zero. -/
def a3FinalTries (present : Nat → Bool) : Nat := a3LoopTries present 0

/-- Models lines 109-110 of `a3update.py`: the terminal failure report,
naming the mod, emitted exactly when the retry cap was exhausted. -/
def a3FailReport (present : Nat → Bool) (key : String) : Option String :=
  if a3FinalTries present ≥ 10 then
    some ("!! Updating " ++ key ++ " failed after " ++
      toString (a3FinalTries present) ++ " tries !!")
  else none

/-- Observable filesystem and process events of the download
orchestrators. -/
inductive Event where
  | rmtree (id : String)
  | steamcmd (ids : List String)
  | skip (id : String)
  | faillog (id : String)
deriving Repr, DecidableEq

/-- The event `e` is a steamcmd invocation that fetches `v`. -/
def invokes (e : Event) (v : String) : Bool :=
  match e with
  | .steamcmd ids => ids.contains v
  | _ => false

/-- The event `e` removes the directory of `v`. -/
def removes (e : Event) (v : String) : Bool :=
  e == .rmtree v

/-- The event is a directory removal (of any mod). -/
def isRemoval (e : Event) : Bool :=
  match e with
  | .rmtree _ => true
  | _ => false

/-- Every steamcmd invocation fetching `v` in the trace is preceded by a
removal of the directory of `v`. -/
def RemovedBeforeInvoked (tr : List Event) (v : String) : Prop :=
  ∀ j : Fin tr.length, invokes (tr.get j) v = true →
    ∃ i : Fin tr.length, i.1 < j.1 ∧ removes (tr.get i) v = true

/-- Steamcmd invocations of the a3update per-mod download loop: one
invocation per try, plus the terminal failure log when the cap is
exhausted. -/
def a3DownloadEvents (present : Nat → Bool) (v : String) : List Event :=
  (List.range (a3FinalTries present)).map (fun _ => .steamcmd [v]) ++
    (if a3FinalTries present ≥ 10 then [.faillog v] else [])

/-- Models the body of the per-mod loop of `a3update.update_mods` (lines
74-110) as an event trace: when the directory exists and the mod is
stale, the directory is removed first (lines 79-84) and only then does
the download loop invoke steamcmd; an up-to-date mod is skipped. -/
def a3update_mod_trace (dirInitial : Bool) (stale : Bool) (present : Nat → Bool)
    (v : String) : List Event :=
  if dirInitial then
    if stale then .rmtree v :: a3DownloadEvents present v
    else [.skip v]
  else a3DownloadEvents present v

/-- Retry-loop part of `arma3modtools.update_mods` (lines 289-295) as an
event trace, truncated after `fuel` iterations because the loop has no
bound (see the theorems on `armaRetryHalts`): each polling check that
finds missing mods triggers one more batched steamcmd invocation. -/
def armaLoopTrace (dirsAt : Nat → List String) : Nat → Nat → List String → List Event
  | 0, _, _ => []
  | fuel + 1, k, mods =>
    let remaining := check_installed_dirs (dirsAt k) mods
    if remaining = [] then []
    else .steamcmd remaining :: armaLoopTrace dirsAt fuel (k + 1) remaining

/-- Models `arma3modtools.update_mods` (lines 269-295) as an event trace:
classification, the first batched invocation for all stale mods, and the
polling retry loop. `classified` pairs each mod key with its staleness
result; `dirsAt k` is the workshop listing at the k-th polling check. The
function contains no `rmtree` call of any kind: existing directories are
never removed before a download. (The trailing validation pass and the
lowercase pass of lines 296-303 are beyond this trace.) -/
def arma_update_trace (classified : List (String × Bool)) (dirsAt : Nat → List String)
    (fuel : Nat) : List Event :=
  let mods_to_update := (classified.filter (fun c => c.2)).map (fun c => c.1)
  (if mods_to_update.isEmpty then [] else [.steamcmd mods_to_update]) ++
    armaLoopTrace dirsAt fuel 0 mods_to_update

/-- Models `lowercase_workshop_dir` of `a3update.py` (lines 113-114): the
depth-first find-and-rename lowercases the final component of every path
under the workshop root, deepest entries first; the net effect on the
tree is that every component of every path is lowercased. A filesystem is
modelled as the list of its entry paths (component lists from the root);
renames are modelled as consistent component maps, sibling-collision
overwrites are not modelled. -/
def lowercase_workshop_dir (fs : List (List String)) : List (List String) :=
  fs.map fun p => p.map pyLower

/-- Models `lowercase_mods` of `arma3modtools.py` (lines 351-366): the
outer `iterdir` loop only ITERATES over the top-level entries and the
inner `rglob` renames the items below them, so the first component of
every path keeps its case while all deeper components are lowercased.
Same modelling conventions as `lowercase_workshop_dir`. -/
def lowercase_mods_path (p : List String) : List String :=
  match p with
  | [] => []
  | top :: rest => top :: rest.map pyLower

/-- The whole arma3modtools lowercase pass over the modelled tree. -/
def lowercase_mods (fs : List (List String)) : List (List String) :=
  fs.map lowercase_mods_path

theorem noIncoming_iff {edges : List (String × String)} {remaining : List String}
    {n : String} :
    noIncoming edges remaining n = true ↔
      ∀ p ∈ edges, p.2 = n → p.1 ∉ remaining := by
  simp only [noIncoming, List.all_eq_true, Bool.not_eq_true', Bool.and_eq_false_iff,
    beq_eq_false_iff_ne, ne_eq, List.elem_iff, Bool.not_eq_true]
  constructor
  · intro h p hp hp2 hp1
    rcases h p hp with h1 | h1
    · exact h1 hp2
    · rw [← Bool.not_eq_true] at h1
      exact h1 (by simpa [List.elem_iff] using hp1)
  · intro h p hp
    by_cases hp2 : p.2 = n
    · right
      have := h p hp hp2
      simpa [List.elem_iff] using this
    · exact Or.inl hp2

theorem reaches_trans {edges : List (String × String)} {a b c : String}
    (h1 : Reaches edges a b) : Reaches edges b c → Reaches edges a c := by
  induction h1 with
  | single h => exact fun h2 => .cons h h2
  | cons h _ ih => exact fun h2 => .cons h (ih h2)

theorem exists_noIncoming {edges : List (String × String)} (hacyc : Acyclic edges)
    (remaining : List String) (hne : remaining ≠ []) :
    ∃ n ∈ remaining, noIncoming edges remaining n = true := by
  by_contra hcon
  push_neg at hcon
  have hpred : ∀ n ∈ remaining, ∃ a ∈ remaining, (a, n) ∈ edges := by
    intro n hn
    have hni := hcon n hn
    have : ¬ (∀ p ∈ edges, p.2 = n → p.1 ∉ remaining) := fun hall =>
      hni (noIncoming_iff.mpr hall)
    push_neg at this
    obtain ⟨p, hp, hp2, hp1⟩ := this
    exact ⟨p.1, hp1, by rwa [← hp2, Prod.mk.eta]⟩
  obtain ⟨x0, hx0⟩ := List.exists_mem_of_ne_nil remaining hne
  haveI : Finite {x // x ∈ remaining} := remaining.finite_toSet.to_subtype
  let r : {x // x ∈ remaining} → {x // x ∈ remaining} → Prop :=
    fun u v => Reaches edges u.1 v.1
  haveI : IsTrans {x // x ∈ remaining} r := ⟨fun _ _ _ huv hvw => reaches_trans huv hvw⟩
  haveI : IsIrrefl {x // x ∈ remaining} r := ⟨fun u hu => hacyc u.1 hu⟩
  obtain ⟨m, -, hmin⟩ := (Finite.wellFounded_of_trans_of_irrefl r).has_min Set.univ
    ⟨⟨x0, hx0⟩, Set.mem_univ _⟩
  obtain ⟨a, ha, hedge⟩ := hpred m.1 m.2
  exact hmin ⟨a, ha⟩ (Set.mem_univ _) (Reaches.single hedge)

theorem kahnAux_nil (edges : List (String × String)) (fuel : Nat) :
    kahnAux edges fuel [] = some [] := by
  cases fuel <;> rfl

theorem kahnAux_cons_eq (edges : List (String × String)) (fuel : Nat) (r : String)
    (rs : List String) :
    kahnAux edges (fuel + 1) (r :: rs) =
      match (r :: rs).find? (noIncoming edges (r :: rs)) with
      | none => none
      | some n => (kahnAux edges fuel ((r :: rs).erase n)).map (n :: ·) := rfl

theorem kahnAux_perm {edges : List (String × String)} :
    ∀ {fuel : Nat} {remaining l : List String},
      kahnAux edges fuel remaining = some l → l.Perm remaining := by
  intro fuel
  induction fuel with
  | zero =>
    intro remaining l h
    cases remaining with
    | nil => rw [kahnAux_nil] at h; injection h with h; subst h; exact .nil
    | cons r rs => exact absurd h (by simp [kahnAux])
  | succ f ih =>
    intro remaining l h
    cases remaining with
    | nil => rw [kahnAux_nil] at h; injection h with h; subst h; exact .nil
    | cons r rs =>
      rw [kahnAux_cons_eq] at h
      split at h
      · cases h
      · next n hf =>
        obtain ⟨l', hl', rfl⟩ := Option.map_eq_some'.mp h
        have hn : n ∈ r :: rs := List.mem_of_find?_eq_some hf
        exact ((ih hl').cons n).trans (List.perm_cons_erase hn).symm

theorem kahnAux_indexOf_lt {edges : List (String × String)} :
    ∀ {fuel : Nat} {remaining l : List String},
      kahnAux edges fuel remaining = some l →
      ∀ {a b : String}, (a, b) ∈ edges → a ∈ remaining → b ∈ remaining →
        l.indexOf a < l.indexOf b := by
  intro fuel
  induction fuel with
  | zero =>
    intro remaining l h a b _ ha _
    cases remaining with
    | nil => cases ha
    | cons r rs => exact absurd h (by simp [kahnAux])
  | succ f ih =>
    intro remaining l h a b hab ha hb
    cases remaining with
    | nil => cases ha
    | cons r rs =>
      rw [kahnAux_cons_eq] at h
      split at h
      · cases h
      · next n hf =>
        obtain ⟨l', hl', rfl⟩ := Option.map_eq_some'.mp h
        have hno : noIncoming edges (r :: rs) n = true := List.find?_some hf
        have hbn : b ≠ n := by
          rintro rfl
          exact (noIncoming_iff.mp hno (a, b) hab rfl) ha
        by_cases han : a = n
        · subst han
          rw [List.indexOf_cons_self, List.indexOf_cons_ne l' (Ne.symm hbn)]
          exact Nat.succ_pos _
        · have ha' : a ∈ (r :: rs).erase n := (List.mem_erase_of_ne han).mpr ha
          have hb' : b ∈ (r :: rs).erase n := (List.mem_erase_of_ne hbn).mpr hb
          have hlt := ih hl' hab ha' hb'
          rw [List.indexOf_cons_ne l' (Ne.symm han), List.indexOf_cons_ne l' (Ne.symm hbn)]
          exact Nat.succ_lt_succ hlt

theorem kahnAux_complete {edges : List (String × String)} (hacyc : Acyclic edges) :
    ∀ (fuel : Nat) (remaining : List String), remaining.length ≤ fuel →
      ∃ l, kahnAux edges fuel remaining = some l := by
  intro fuel
  induction fuel with
  | zero =>
    intro remaining hlen
    cases remaining with
    | nil => exact ⟨[], rfl⟩
    | cons r rs => simp at hlen
  | succ f ih =>
    intro remaining hlen
    cases remaining with
    | nil => exact ⟨[], rfl⟩
    | cons r rs =>
      obtain ⟨n, hn, hni⟩ := exists_noIncoming hacyc (r :: rs) (by simp)
      obtain ⟨m, hm⟩ : ∃ m, (r :: rs).find? (noIncoming edges (r :: rs)) = some m := by
        cases hf : (r :: rs).find? (noIncoming edges (r :: rs)) with
        | some m => exact ⟨m, rfl⟩
        | none => exact absurd hni (List.find?_eq_none.mp hf n hn)
      have hmem : m ∈ r :: rs := List.mem_of_find?_eq_some hm
      have hlen' : ((r :: rs).erase m).length ≤ f := by
        have h2 : ((r :: rs).erase m).length + 1 = (r :: rs).length :=
          List.length_erase_add_one hmem
        simp only [List.length_cons] at h2 hlen
        omega
      obtain ⟨l', hl'⟩ := ih _ hlen'
      exact ⟨m :: l', by simp [kahnAux_cons_eq, hm, hl']⟩

theorem kahnAux_cycle_none {edges : List (String × String)} {C : List String}
    (hCne : C ≠ []) (hCpred : ∀ c ∈ C, ∃ c' ∈ C, (c', c) ∈ edges) :
    ∀ (fuel : Nat) (remaining : List String), (∀ c ∈ C, c ∈ remaining) →
      kahnAux edges fuel remaining = none := by
  intro fuel
  induction fuel with
  | zero =>
    intro remaining hsub
    cases remaining with
    | nil =>
      obtain ⟨c, hc⟩ := List.exists_mem_of_ne_nil C hCne
      exact absurd (hsub c hc) (List.not_mem_nil c)
    | cons r rs => rfl
  | succ f ih =>
    intro remaining hsub
    cases remaining with
    | nil =>
      obtain ⟨c, hc⟩ := List.exists_mem_of_ne_nil C hCne
      exact absurd (hsub c hc) (List.not_mem_nil c)
    | cons r rs =>
      cases hf : (r :: rs).find? (noIncoming edges (r :: rs)) with
      | none => simp [kahnAux_cons_eq, hf]
      | some n =>
        have hnC : n ∉ C := by
          intro hnC
          obtain ⟨c', hc', hedge⟩ := hCpred n hnC
          exact (noIncoming_iff.mp (List.find?_some hf) (c', n) hedge rfl) (hsub c' hc')
        have hsub' : ∀ c ∈ C, c ∈ (r :: rs).erase n := fun c hc =>
          (List.mem_erase_of_ne (fun h => hnC (by rw [← h]; exact hc))).mpr (hsub c hc)
        simp [kahnAux_cons_eq, hf, ih _ hsub']

theorem reaches_pathset {edges : List (String × String)} {a b : String}
    (h : Reaches edges a b) :
    ∃ P : List String, a ∈ P ∧ (∃ p ∈ P, (p, b) ∈ edges) ∧
      ∀ c ∈ P, c = a ∨ ∃ c' ∈ P, (c', c) ∈ edges := by
  induction h with
  | @single x y hab =>
    exact ⟨[x], List.mem_singleton_self x, ⟨x, List.mem_singleton_self x, hab⟩,
      fun c hc => Or.inl (List.mem_singleton.mp hc)⟩
  | @cons x y z hab _ ih =>
    obtain ⟨P, hyP, ⟨p, hpP, hpe⟩, hstep⟩ := ih
    refine ⟨x :: P, List.mem_cons_self x P, ⟨p, List.mem_cons_of_mem x hpP, hpe⟩, ?_⟩
    intro c hc
    rcases List.mem_cons.mp hc with rfl | hcP
    · exact Or.inl rfl
    · rcases hstep c hcP with rfl | ⟨c', hc', he⟩
      · exact Or.inr ⟨x, List.mem_cons_self x P, hab⟩
      · exact Or.inr ⟨c', List.mem_cons_of_mem x hc', he⟩

theorem cycle_set_of_reaches_self {edges : List (String × String)} {a : String}
    (h : Reaches edges a a) :
    ∃ C : List String, C ≠ [] ∧ ∀ c ∈ C, ∃ c' ∈ C, (c', c) ∈ edges := by
  obtain ⟨P, haP, ⟨p, hpP, hpe⟩, hstep⟩ := reaches_pathset h
  refine ⟨P, fun h0 => absurd (h0 ▸ haP) (List.not_mem_nil a), ?_⟩
  intro c hc
  rcases hstep c hc with rfl | hx
  · exact ⟨p, hpP, hpe⟩
  · exact hx

theorem mem_nodes_addNode {g : DepGraph} {n x : String} :
    x ∈ (addNode g n).nodes ↔ x ∈ g.nodes ∨ x = n := by
  unfold addNode
  split
  · next hn =>
    constructor
    · exact Or.inl
    · rintro (h | rfl)
      · exact h
      · exact hn
  · next hn => simp

theorem edges_addNode (g : DepGraph) (n : String) : (addNode g n).edges = g.edges := by
  unfold addNode
  split <;> rfl

theorem mem_nodes_addEdge {g : DepGraph} {u v x : String} :
    x ∈ (addEdge g u v).nodes ↔ x ∈ g.nodes ∨ x = u ∨ x = v := by
  have hsame : (addEdge g u v).nodes = (addNode (addNode g u) v).nodes := by
    unfold addEdge
    split <;> rfl
  rw [hsame, mem_nodes_addNode, mem_nodes_addNode, or_assoc]

theorem mem_edges_addEdge {g : DepGraph} {u v : String} {p : String × String} :
    p ∈ (addEdge g u v).edges ↔ p ∈ g.edges ∨ p = (u, v) := by
  unfold addEdge
  split
  · next hmem =>
    rw [edges_addNode, edges_addNode] at hmem ⊢
    constructor
    · exact Or.inl
    · rintro (h | rfl)
      · exact h
      · exact hmem
  · show p ∈ (addNode (addNode g u) v).edges ++ [(u, v)] ↔ _
    rw [List.mem_append, edges_addNode, edges_addNode, List.mem_singleton]

theorem mem_nodes_depsFold {pn : String} {deps : List String} {g : DepGraph}
    {x : String} (hpn : pn ∈ g.nodes) :
    x ∈ (deps.foldl (fun g2 dep => addEdge (addNode g2 dep) dep pn) g).nodes ↔
      x ∈ g.nodes ∨ x ∈ deps := by
  induction deps generalizing g with
  | nil => simp
  | cons d ds ih =>
    rw [List.foldl_cons,
      ih (by rw [mem_nodes_addEdge]; exact Or.inr (Or.inr rfl)),
      mem_nodes_addEdge, mem_nodes_addNode, List.mem_cons]
    have hx : x = pn → x ∈ g.nodes := fun h => by rw [h]; exact hpn
    tauto

theorem mem_edges_depsFold {pn : String} {deps : List String} {g : DepGraph}
    {p : String × String} :
    p ∈ (deps.foldl (fun g2 dep => addEdge (addNode g2 dep) dep pn) g).edges ↔
      p ∈ g.edges ∨ (p.2 = pn ∧ p.1 ∈ deps) := by
  induction deps generalizing g with
  | nil => simp
  | cons d ds ih =>
    rw [List.foldl_cons, ih, mem_edges_addEdge, edges_addNode, Prod.ext_iff,
      List.mem_cons]
    tauto

theorem mem_nodes_addEntry {g : DepGraph} {e : ModEntry} {x : String} :
    x ∈ (addEntry g e).nodes ↔
      x ∈ g.nodes ∨ x = e.param_name ∨ x ∈ e.dependencies := by
  unfold addEntry
  rw [mem_nodes_depsFold (by rw [mem_nodes_addNode]; exact Or.inr rfl)]
  rw [mem_nodes_addNode]
  tauto

theorem mem_edges_addEntry {g : DepGraph} {e : ModEntry} {p : String × String} :
    p ∈ (addEntry g e).edges ↔
      p ∈ g.edges ∨ (p.2 = e.param_name ∧ p.1 ∈ e.dependencies) := by
  unfold addEntry
  rw [mem_edges_depsFold, edges_addNode]

theorem mem_nodes_buildGraph {d : List ModEntry} {x : String} :
    x ∈ (buildGraph d).nodes ↔ ∃ e ∈ d, x = e.param_name ∨ x ∈ e.dependencies := by
  suffices h : ∀ g : DepGraph, x ∈ (d.foldl addEntry g).nodes ↔
      x ∈ g.nodes ∨ ∃ e ∈ d, x = e.param_name ∨ x ∈ e.dependencies by
    rw [buildGraph, h ⟨[], []⟩]
    simp
  induction d with
  | nil => simp
  | cons e es ih =>
    intro g
    rw [List.foldl_cons, ih, mem_nodes_addEntry]
    simp only [List.mem_cons]
    constructor
    · rintro ((h | h) | ⟨e2, h2, h3⟩)
      · exact Or.inl h
      · exact Or.inr ⟨e, Or.inl rfl, h⟩
      · exact Or.inr ⟨e2, Or.inr h2, h3⟩
    · rintro (h | ⟨e2, (rfl | h2), h3⟩)
      · exact Or.inl (Or.inl h)
      · exact Or.inl (Or.inr h3)
      · exact Or.inr ⟨e2, h2, h3⟩

theorem mem_edges_buildGraph {d : List ModEntry} {p : String × String} :
    p ∈ (buildGraph d).edges ↔
      ∃ e ∈ d, p.2 = e.param_name ∧ p.1 ∈ e.dependencies := by
  suffices h : ∀ g : DepGraph, p ∈ (d.foldl addEntry g).edges ↔
      p ∈ g.edges ∨ ∃ e ∈ d, p.2 = e.param_name ∧ p.1 ∈ e.dependencies by
    rw [buildGraph, h ⟨[], []⟩]
    simp
  induction d with
  | nil => simp
  | cons e es ih =>
    intro g
    rw [List.foldl_cons, ih, mem_edges_addEntry]
    simp only [List.mem_cons]
    constructor
    · rintro ((h | h) | ⟨e2, h2, h3⟩)
      · exact Or.inl h
      · exact Or.inr ⟨e, Or.inl rfl, h⟩
      · exact Or.inr ⟨e2, Or.inr h2, h3⟩
    · rintro (h | ⟨e2, (rfl | h2), h3⟩)
      · exact Or.inl (Or.inl h)
      · exact Or.inl (Or.inr h3)
      · exact Or.inr ⟨e2, h2, h3⟩

theorem nodes_nodup_addNode {g : DepGraph} (h : g.nodes.Nodup) (n : String) :
    (addNode g n).nodes.Nodup := by
  unfold addNode
  split
  · exact h
  · next hn =>
    rw [List.nodup_append]
    exact ⟨h, List.nodup_singleton n, by simpa using hn⟩

theorem nodes_nodup_addEdge {g : DepGraph} (h : g.nodes.Nodup) (u v : String) :
    (addEdge g u v).nodes.Nodup := by
  have hsame : (addEdge g u v).nodes = (addNode (addNode g u) v).nodes := by
    unfold addEdge
    split <;> rfl
  rw [hsame]
  exact nodes_nodup_addNode (nodes_nodup_addNode h u) v

theorem nodes_nodup_addEntry {g : DepGraph} (h : g.nodes.Nodup) (e : ModEntry) :
    (addEntry g e).nodes.Nodup := by
  unfold addEntry
  have hbase := nodes_nodup_addNode h e.param_name
  generalize addNode g e.param_name = g0 at hbase
  induction e.dependencies generalizing g0 with
  | nil => exact hbase
  | cons d ds ih =>
    rw [List.foldl_cons]
    exact ih _ (nodes_nodup_addEdge (nodes_nodup_addNode hbase d) d e.param_name)

theorem nodes_nodup_buildGraph (d : List ModEntry) : (buildGraph d).nodes.Nodup := by
  rw [buildGraph]
  have h0 : (⟨[], []⟩ : DepGraph).nodes.Nodup := List.nodup_nil
  generalize (⟨[], []⟩ : DepGraph) = g0 at h0
  induction d generalizing g0 with
  | nil => exact h0
  | cons e es ih =>
    rw [List.foldl_cons]
    exact ih _ (nodes_nodup_addEntry h0 e)

theorem acyclic_of_kahn_some {d : List ModEntry} {l : List String}
    (h : kahn (buildGraph d) = some l) : Acyclic (buildGraph d).edges := by
  intro a hreach
  obtain ⟨C, hCne, hCpred⟩ := cycle_set_of_reaches_self hreach
  have hsub : ∀ c ∈ C, c ∈ (buildGraph d).nodes := by
    intro c hc
    obtain ⟨c', hc', hedge⟩ := hCpred c hc
    rw [mem_edges_buildGraph] at hedge
    obtain ⟨e, he, h2, h1⟩ := hedge
    exact mem_nodes_buildGraph.mpr ⟨e, he, Or.inl h2⟩
  rw [kahn, kahnAux_cycle_none hCne hCpred _ _ hsub] at h
  cases h

/-- C1: for every registry whose dependency graph is acyclic,
`dependency_sort` succeeds; the sorted list enumerates, without
duplicates, exactly the stable short names appearing in the registry
(as a mod or as a declared dependency); every declared dependency comes
strictly before its dependent; and the rendered load order is exactly the
rendering of that list. -/
theorem dependency_sort_topological (d : List ModEntry)
    (hacyc : Acyclic (buildGraph d).edges) :
    ∃ l, dependency_sort_list d = some l ∧
      dependency_sort d = .ok (renderLoadOrder l) ∧
      l.Nodup ∧
      (∀ x, x ∈ l ↔ ∃ e ∈ d, x = e.param_name ∨ x ∈ e.dependencies) ∧
      (∀ e ∈ d, ∀ a ∈ e.dependencies, l.indexOf a < l.indexOf e.param_name) := by
  obtain ⟨l, hl⟩ :=
    kahnAux_complete hacyc (buildGraph d).nodes.length (buildGraph d).nodes le_rfl
  have hlist : dependency_sort_list d = some l := by
    rw [dependency_sort_list, kahn]
    exact hl
  have hperm : l.Perm (buildGraph d).nodes := kahnAux_perm hl
  refine ⟨l, hlist, ?_, ?_, ?_, ?_⟩
  · simp [dependency_sort, hlist]
  · exact hperm.nodup_iff.mpr (nodes_nodup_buildGraph d)
  · intro x
    rw [hperm.mem_iff, mem_nodes_buildGraph]
  · intro e he a ha
    refine kahnAux_indexOf_lt hl ?_ ?_ ?_
    · exact mem_edges_buildGraph.mpr ⟨e, he, rfl, ha⟩
    · exact mem_nodes_buildGraph.mpr ⟨e, he, Or.inr ha⟩
    · exact mem_nodes_buildGraph.mpr ⟨e, he, Or.inl rfl⟩

/-- Witness for the C1 theorem at the registry where mod "@a" depends on
mod "@b": the hypothesis is discharged concretely and the conclusion is
instantiated. -/
theorem dependency_sort_topological_witness :
    Acyclic (buildGraph [⟨"1", "@a", ["@b"]⟩, ⟨"2", "@b", []⟩]).edges ∧
    ∃ l, dependency_sort_list [⟨"1", "@a", ["@b"]⟩, ⟨"2", "@b", []⟩] = some l ∧
      dependency_sort [⟨"1", "@a", ["@b"]⟩, ⟨"2", "@b", []⟩] = .ok (renderLoadOrder l) ∧
      l.Nodup ∧
      (∀ x, x ∈ l ↔ ∃ e ∈ [(⟨"1", "@a", ["@b"]⟩ : ModEntry), ⟨"2", "@b", []⟩],
        x = e.param_name ∨ x ∈ e.dependencies) ∧
      (∀ e ∈ [(⟨"1", "@a", ["@b"]⟩ : ModEntry), ⟨"2", "@b", []⟩],
        ∀ a ∈ e.dependencies, l.indexOf a < l.indexOf e.param_name) :=
  have hacyc : Acyclic (buildGraph [⟨"1", "@a", ["@b"]⟩, ⟨"2", "@b", []⟩]).edges :=
    acyclic_of_kahn_some (l := ["@b", "@a"]) (by rfl)
  ⟨hacyc, dependency_sort_topological _ hacyc⟩

/-- C4: for every registry whose dependency graph contains a cycle, the
topological sort fails with the named cycle error (it is a total function,
so it cannot loop, and it returns no truncated order), and the startup
script is not written: the combined sort-then-write step propagates the
error instead of producing new script content. -/
theorem dependency_sort_cycle_fails (d : List ModEntry) (existing : Option String)
    (hcyc : ∃ a, Reaches (buildGraph d).edges a a) :
    dependency_sort d = .error "NetworkXUnfeasible: Graph contains a cycle" ∧
    sort_then_write d existing = .error "NetworkXUnfeasible: Graph contains a cycle" := by
  obtain ⟨a, ha⟩ := hcyc
  obtain ⟨C, hCne, hCpred⟩ := cycle_set_of_reaches_self ha
  have hsub : ∀ c ∈ C, c ∈ (buildGraph d).nodes := by
    intro c hc
    obtain ⟨c', hc', hedge⟩ := hCpred c hc
    rw [mem_edges_buildGraph] at hedge
    obtain ⟨e, he, h2, h1⟩ := hedge
    exact mem_nodes_buildGraph.mpr ⟨e, he, Or.inl h2⟩
  have hnone : dependency_sort_list d = none := by
    rw [dependency_sort_list, kahn]
    exact kahnAux_cycle_none hCne hCpred _ _ hsub
  constructor
  · simp [dependency_sort, hnone]
  · simp [sort_then_write, dependency_sort, hnone]

/-- Witness for the C4 theorem at the two-mod cycle "@a" depends on "@b"
and "@b" depends on "@a", with an existing one-line startup script. -/
theorem dependency_sort_cycle_fails_witness :
    (∃ a, Reaches (buildGraph [⟨"1", "@a", ["@b"]⟩, ⟨"2", "@b", ["@a"]⟩]).edges a a) ∧
    dependency_sort [⟨"1", "@a", ["@b"]⟩, ⟨"2", "@b", ["@a"]⟩] =
      .error "NetworkXUnfeasible: Graph contains a cycle" ∧
    sort_then_write [⟨"1", "@a", ["@b"]⟩, ⟨"2", "@b", ["@a"]⟩]
      (some "./arma3server -port=2302") =
      .error "NetworkXUnfeasible: Graph contains a cycle" :=
  have hcyc : ∃ a, Reaches (buildGraph [⟨"1", "@a", ["@b"]⟩, ⟨"2", "@b", ["@a"]⟩]).edges a a :=
    ⟨"@a", Reaches.cons (a := "@a") (b := "@b") (by decide)
      (Reaches.single (a := "@b") (b := "@a") (by decide))⟩
  ⟨hcyc, dependency_sort_cycle_fails _ _ hcyc⟩

/-- C2 counterexample: when the announcement time equals the directory
creation time, both staleness checks classify the mod as needing an
update, although the creation time is not strictly earlier than the
announcement time; the claim's strict boundary does not match the code's
greater-or-equal comparison. -/
theorem staleness_equal_counterexample :
    needs_update true (.page (some 100)) 100 = .ok true ∧
    mod_needs_update true (.page (some 100)) 100 = .ok true ∧ ¬ (100 < 100) :=
  ⟨rfl, rfl, by omega⟩

/-- C2 amended: for a mod whose directory exists and whose changelog page
parses, both staleness checks classify the mod as needing an update
exactly when the creation time is earlier than or equal to the
announcement time, and as up-to-date exactly when the creation time is
strictly later than the announcement time. -/
theorem staleness_boundary (updated ctime : Nat) :
    (needs_update true (.page (some updated)) ctime = .ok true ↔ ctime ≤ updated) ∧
    (needs_update true (.page (some updated)) ctime = .ok false ↔ updated < ctime) ∧
    (mod_needs_update true (.page (some updated)) ctime = .ok true ↔ ctime ≤ updated) ∧
    (mod_needs_update true (.page (some updated)) ctime = .ok false ↔ updated < ctime) := by
  refine ⟨?_, ?_, ?_, ?_⟩ <;> simp [needs_update, mod_needs_update]

/-- C5 counterexample: with the directory present and no parseable
announcement block, a3update's staleness check reports that no update is
needed (its caller then prints a skip message), and arma3modtools' check
raises an uncaught AttributeError; neither classifies the mod as needing
an update as the claim requires. -/
theorem unparseable_counterexample :
    mod_needs_update true (.page none) 0 = .ok false ∧
    needs_update true (.page none) 0 =
      .error "AttributeError: NoneType object has no attribute p" :=
  ⟨rfl, rfl⟩

/-- C5 amended: for every creation time, a changelog page without a
parseable announcement block makes a3update's staleness check classify
the mod as not needing an update (fail-closed), while arma3modtools'
check fails with an uncaught error instead of classifying the mod. -/
theorem unparseable_behavior (ctime : Nat) :
    mod_needs_update true (.page none) ctime = .ok false ∧
    needs_update true (.page none) ctime =
      .error "AttributeError: NoneType object has no attribute p" :=
  ⟨rfl, rfl⟩

/-- C9 counterexample: for a missing directory each staleness check
returns the same bare boolean it returns for some present-directory
configuration — true, as for a stale mod, in arma3modtools, and false,
as for an up-to-date mod, in a3update — so the result does not
distinguish a not-present mod. -/
theorem absent_dir_counterexample :
    needs_update false (.page (some 5)) 0 = needs_update true (.page (some 5)) 0 ∧
    needs_update false (.page (some 5)) 0 = .ok true ∧
    mod_needs_update false (.page (some 5)) 10 =
      mod_needs_update true (.page (some 5)) 10 ∧
    mod_needs_update false (.page (some 5)) 10 = .ok false :=
  ⟨rfl, rfl, rfl, rfl⟩

/-- C9 amended: for a missing directory, arma3modtools' check returns
plain true (conflated with stale) and a3update's check returns plain
false (conflated with up-to-date), whatever the remote page would say; in
a3update only the caller's own directory test distinguishes absence. -/
theorem absent_dir_behavior (fetch : Fetched) (ctime : Nat) :
    needs_update false fetch ctime = .ok true ∧
    mod_needs_update false fetch ctime = .ok false :=
  ⟨rfl, rfl⟩

theorem pyListRemove_eq_erase (l : List String) (d : String) :
    pyListRemove l d = l.erase d := by
  induction l with
  | nil => rfl
  | cons x xs ih =>
    unfold pyListRemove
    by_cases hdx : d = x
    · subst hdx
      rw [if_pos (List.mem_cons_self d xs), List.indexOf_cons_self,
        List.erase_cons_head]
      rfl
    · rw [List.erase_cons_tail (by simp [Ne.symm hdx])]
      by_cases hmem : d ∈ xs
      · rw [if_pos (List.mem_cons_of_mem x hmem),
          List.indexOf_cons_ne xs (fun h => hdx h.symm)]
        have hxs := ih
        rw [pyListRemove, if_pos hmem] at hxs
        rw [← hxs]
        rfl
      · rw [if_neg (by simp [hdx, hmem]), List.erase_of_not_mem hmem]

theorem check_installed_dirs_eq_filter (dirs : List String) :
    ∀ modList : List String, modList.Nodup →
      check_installed_dirs dirs modList =
        modList.filter (fun m => decide (m ∉ dirs)) := by
  induction dirs with
  | nil =>
    intro l _
    simp [check_installed_dirs]
  | cons d ds ih =>
    intro l hnd
    have hstep : check_installed_dirs (d :: ds) l =
        check_installed_dirs ds (l.erase d) := by
      rw [check_installed_dirs, List.foldl_cons, pyListRemove_eq_erase]
      rfl
    rw [hstep, ih _ (hnd.erase d), hnd.erase_eq_filter d, List.filter_filter]
    apply List.filter_congr
    intro m _
    by_cases h1 : m = d <;> by_cases h2 : m ∈ ds <;> simp [h1, h2]

/-- C10: at the store level, `check_installed_dirs` returns the very list
object it was passed (the same id), and that object now holds the
previous mod list with every identifier whose directory is listed in the
workshop directory removed; every other list object is untouched, and the
caller's list only shrinks (it becomes a sublist of its old value). -/
theorem check_installed_dirs_in_place (dirs : List String) (σ : Store) (r : Nat)
    (hnd : (σ r).Nodup) :
    (check_installed_dirs_ref dirs σ r).2 = r ∧
    (check_installed_dirs_ref dirs σ r).1 r =
      (σ r).filter (fun m => decide (m ∉ dirs)) ∧
    ((check_installed_dirs_ref dirs σ r).1 r).Sublist (σ r) ∧
    (∀ i, i ≠ r → (check_installed_dirs_ref dirs σ r).1 i = σ i) := by
  have hval : (check_installed_dirs_ref dirs σ r).1 r =
      check_installed_dirs dirs (σ r) := by
    show (if r = r then check_installed_dirs dirs (σ r) else σ r) = _
    rw [if_pos rfl]
  refine ⟨rfl, ?_, ?_, ?_⟩
  · rw [hval]
    exact check_installed_dirs_eq_filter dirs (σ r) hnd
  · rw [hval, check_installed_dirs_eq_filter dirs (σ r) hnd]
    exact List.filter_sublist _
  · intro i hi
    show (if i = r then check_installed_dirs dirs (σ r) else σ i) = σ i
    rw [if_neg hi]

/-- Witness for the C10 theorem: the store holds the list of the two mod
keys at object 0, the workshop directory contains the first key, and the
call returns object 0 now holding only the second key. -/
theorem check_installed_dirs_in_place_witness :
    ((fun _ => ["450814997", "463939057"] : Store) 0).Nodup ∧
    ((check_installed_dirs_ref ["450814997"] (fun _ => ["450814997", "463939057"]) 0).2 = 0 ∧
    (check_installed_dirs_ref ["450814997"] (fun _ => ["450814997", "463939057"]) 0).1 0 =
      ((fun _ => ["450814997", "463939057"] : Store) 0).filter
        (fun m => decide (m ∉ ["450814997"])) ∧
    ((check_installed_dirs_ref ["450814997"] (fun _ => ["450814997", "463939057"]) 0).1 0).Sublist
      ((fun _ => ["450814997", "463939057"] : Store) 0) ∧
    (∀ i, i ≠ 0 →
      (check_installed_dirs_ref ["450814997"] (fun _ => ["450814997", "463939057"]) 0).1 i =
        (fun _ => ["450814997", "463939057"] : Store) i)) :=
  ⟨by decide,
    check_installed_dirs_in_place ["450814997"] (fun _ => ["450814997", "463939057"]) 0
      (by decide)⟩

theorem armaRetryState_const_empty (mods0 : List String) :
    ∀ k, armaRetryState (fun _ => []) mods0 k = mods0 := by
  intro k
  induction k with
  | zero => rfl
  | succ k ih => rw [armaRetryState, ih]; rfl

/-- C3 counterexample: with one mod that the external tool never delivers
(the workshop listing stays empty), the retry loop of
`arma3modtools.update_mods` never exits: there is no iteration count
after which the polling check comes back empty, so the orchestrator loops
without bound instead of stopping at a retry cap. -/
theorem arma_update_loop_unbounded :
    ¬ armaRetryHalts (fun _ => []) ["463939057"] := by
  rintro ⟨k, hk⟩
  rw [armaRetryState_const_empty ["463939057"] (k + 1)] at hk
  cases hk

theorem a3LoopTriesAux_le (present : Nat → Bool) :
    ∀ d t, t ≤ 10 → a3LoopTriesAux present d t ≤ 10 := by
  intro d
  induction d with
  | zero => intro t h; exact h
  | succ d ih =>
    intro t h
    rw [a3LoopTriesAux]
    split
    · next hc => exact ih (t + 1) (by omega)
    · exact h

theorem a3FinalTries_le (present : Nat → Bool) : a3FinalTries present ≤ 10 :=
  a3LoopTriesAux_le present 10 0 (by omega)

theorem a3LoopTriesAux_never (present : Nat → Bool) (hnever : ∀ t, present t = false) :
    ∀ d t, 10 - t = d → t ≤ 10 → a3LoopTriesAux present d t = 10 := by
  intro d
  induction d with
  | zero =>
    intro t h1 h2
    have : t = 10 := by omega
    rw [a3LoopTriesAux, this]
  | succ d ih =>
    intro t h1 h2
    rw [a3LoopTriesAux, if_pos ⟨hnever t, by omega⟩]
    exact ih (t + 1) (by omega) (by omega)

/-- C3 amended: the a3update orchestrator is bounded — for every behaviour
of the external tool a mod's download loop makes at most 10 invocations
(its final tries value never exceeds 10) — and when the directory never
appears it stops after exactly 10 tries and emits the terminal failure
report naming the identifier. The arma3modtools variant instead polls
without bound (see the counterexample on `armaRetryHalts`). -/
theorem a3update_retry_bounded (present : Nat → Bool) (key : String) :
    a3FinalTries present ≤ 10 ∧
    ((∀ t, present t = false) →
      a3FailReport present key =
        some ("!! Updating " ++ key ++ " failed after 10 tries !!")) := by
  refine ⟨a3FinalTries_le present, ?_⟩
  intro hnever
  have h10 : a3FinalTries present = 10 :=
    a3LoopTriesAux_never present hnever 10 0 (by omega) (by omega)
  rw [a3FailReport, h10, if_pos (by omega)]
  simp only [String.append_assoc]
  have h : " failed after " ++ (toString (10 : Nat) ++ " tries !!") =
      " failed after 10 tries !!" := by decide
  rw [h]

/-- Witness for the C3 amended theorem with a tool that never delivers
the mod directory: 10 tries and the terminal failure report for the
identifier of the ace3 mod. -/
theorem a3update_retry_bounded_witness :
    a3FinalTries (fun _ => false) ≤ 10 ∧
    a3FailReport (fun _ => false) "463939057" =
      some "!! Updating 463939057 failed after 10 tries !!" := by
  have h := a3update_retry_bounded (fun _ => false) "463939057"
  refine ⟨h.1, ?_⟩
  rw [h.2 (fun t => rfl)]
  rfl

/-- C7 amended: on an existing script, the rewrite acts on the
single-space-split token list as follows. If some token begins with
"-mod=", then EVERY such token is overwritten with the new parameter
(not only the first), the token count is unchanged, and every token
without the prefix keeps its value and position. If no token has the
prefix, the parameter is appended after the original tokens, except that
a final token ending in a newline first loses its last TWO characters. -/
theorem write_start_up_script_token_update (tokens : List String) (p : String) :
    ((tokens.any fun t => pyStartsWith "-mod=" t) = true →
      (updateParams tokens p).length = tokens.length ∧
      (∀ (i : Nat) (t : String), tokens[i]? = some t →
        pyStartsWith "-mod=" t = false → (updateParams tokens p)[i]? = some t) ∧
      (∀ (i : Nat) (t : String), tokens[i]? = some t →
        pyStartsWith "-mod=" t = true → (updateParams tokens p)[i]? = some p)) ∧
    ((tokens.any fun t => pyStartsWith "-mod=" t) = false →
      (∀ l, tokens.getLast? = some l → endsWithNewline l = false) →
      updateParams tokens p = tokens ++ [p]) := by
  constructor
  · intro hmod
    rw [updateParams, if_pos hmod, replaceModParams]
    refine ⟨List.length_map _ _, ?_, ?_⟩
    · intro i t ht hpre
      rw [List.getElem?_map, ht]
      simp [hpre]
    · intro i t ht hpre
      rw [List.getElem?_map, ht]
      simp [hpre]
  · intro hmod hnl
    rw [updateParams, if_neg (by simp [hmod]), fixLastToken]
    cases hlast : tokens.getLast? with
    | none => rfl
    | some l =>
      show (if endsWithNewline l = true then tokens.dropLast ++ [pyDropTwo l]
        else tokens) ++ [p] = tokens ++ [p]
      rw [hnl l hlast]
      simp

/-- Witness for the C7 amended theorem on the two-token script: the
managed token is overwritten and the leading token survives unchanged. -/
theorem write_start_up_script_token_update_witness :
    ((["./arma3server", "-mod=\"@old\""].any fun t => pyStartsWith "-mod=" t) = true) ∧
    (updateParams ["./arma3server", "-mod=\"@old\""] "-mod=\"@a;@b\"").length = 2 ∧
    (updateParams ["./arma3server", "-mod=\"@old\""] "-mod=\"@a;@b\"")[0]? =
      some "./arma3server" ∧
    (updateParams ["./arma3server", "-mod=\"@old\""] "-mod=\"@a;@b\"")[1]? =
      some "-mod=\"@a;@b\"" :=
  have h := (write_start_up_script_token_update ["./arma3server", "-mod=\"@old\""]
    "-mod=\"@a;@b\"").1 (by decide)
  ⟨by decide, h.1, h.2.1 0 "./arma3server" rfl (by decide),
    h.2.2 1 "-mod=\"@old\"" rfl (by decide)⟩

/-- C7 counterexample: a script with two "-mod=" tokens has BOTH
overwritten, not only the first, so the other original token does not
survive; and in the append branch a final token ending in a newline is
cut by two characters, so it is not preserved either. -/
theorem write_start_up_script_counterexample :
    write_start_up_script_content "@a;@b"
        (some "./arma3server -mod=\"@old1\" -mod=\"@old2\"") =
      "./arma3server -mod=\"@a;@b\" -mod=\"@a;@b\"" ∧
    (updateParams (pySplitSpace "./arma3server -mod=\"@old1\" -mod=\"@old2\"")
        "-mod=\"@a;@b\"")[2]? = some "-mod=\"@a;@b\"" ∧
    "-mod=\"@a;@b\"" ≠ "-mod=\"@old2\"" ∧
    updateParams ["./arma3server\n"] "-mod=\"@a;@b\"" =
      ["./arma3serve", "-mod=\"@a;@b\""] :=
  ⟨rfl, rfl, by decide, rfl⟩

theorem armaLoopTrace_no_removal (dirsAt : Nat → List String) :
    ∀ (fuel k : Nat) (mods : List String),
      ((armaLoopTrace dirsAt fuel k mods).all fun e => !isRemoval e) = true := by
  intro fuel
  induction fuel with
  | zero => intro k mods; rfl
  | succ f ih =>
    intro k mods
    rw [armaLoopTrace]
    split
    · rfl
    · simp only [List.all_cons, ih (k + 1)]
      rfl

/-- C6 amended: in a3update, a mod whose directory exists and is stale
has its directory removed FIRST — the removal is the head of the per-mod
trace, and every steamcmd invocation fetching the mod comes strictly
after the removal — while arma3modtools' update_mods never removes a
directory at all: its whole trace is removal-free for every
classification, workshop listing and iteration bound. -/
theorem a3update_removes_before_download (present : Nat → Bool) (v : String)
    (classified : List (String × Bool)) (dirsAt : Nat → List String) (fuel : Nat) :
    (a3update_mod_trace true true present v).head? = some (.rmtree v) ∧
    RemovedBeforeInvoked (a3update_mod_trace true true present v) v ∧
    ((arma_update_trace classified dirsAt fuel).all fun e => !isRemoval e) = true := by
  refine ⟨rfl, ?_, ?_⟩
  · intro j hj
    match j with
    | ⟨0, h0⟩ =>
      exact absurd (show invokes (Event.rmtree v) v = true from hj) (by simp [invokes])
    | ⟨j' + 1, hj'⟩ =>
      refine ⟨⟨0, by omega⟩, Nat.succ_pos j', ?_⟩
      exact (by simp [removes] : removes (Event.rmtree v) v = true)
  · rw [arma_update_trace]
    simp only [List.all_append, Bool.and_eq_true]
    constructor
    · split
      · rfl
      · rfl
    · exact armaLoopTrace_no_removal dirsAt fuel 0 _

/-- Witness for the C6 amended theorem at a concrete tool behaviour and
concrete orchestrator inputs. -/
theorem a3update_removes_before_download_witness :
    (a3update_mod_trace true true (fun _ => true) "450814997").head? =
      some (.rmtree "450814997") ∧
    RemovedBeforeInvoked (a3update_mod_trace true true (fun _ => true) "450814997")
      "450814997" ∧
    ((arma_update_trace [("450814997", true)] (fun _ => ["450814997"]) 3).all
      fun e => !isRemoval e) = true :=
  a3update_removes_before_download (fun _ => true) "450814997"
    [("450814997", true)] (fun _ => ["450814997"]) 3

/-- C6 counterexample: in arma3modtools, the mod with key 450814997 is
classified as needing an update and its workshop directory exists, yet
the orchestrator's only action is a steamcmd invocation for it — there is
no preceding removal anywhere in the trace, against the claim. -/
theorem arma_no_removal_counterexample :
    arma_update_trace [("450814997", true)] (fun _ => ["450814997"]) 3 =
      [.steamcmd ["450814997"]] ∧
    ¬ RemovedBeforeInvoked [.steamcmd ["450814997"]] "450814997" := by
  constructor
  · rfl
  · intro h
    obtain ⟨i, hlt, hrem⟩ := h ⟨0, by decide⟩ (by decide)
    match i with
    | ⟨0, h0⟩ => exact Nat.lt_irrefl 0 hlt

theorem pyLowerChar_idem (c : Char) : pyLowerChar (pyLowerChar c) = pyLowerChar c := by
  by_cases h : 65 ≤ c.toNat ∧ c.toNat ≤ 90
  · have h1 : pyLowerChar c = Char.ofNat (c.toNat + 32) := by
      rw [pyLowerChar, if_pos h]
    have hv : (c.toNat + 32).isValidChar := Or.inl (by omega)
    have ht : (Char.ofNat (c.toNat + 32)).toNat = c.toNat + 32 := by
      unfold Char.ofNat
      split
      · rfl
      · next hh => exact absurd hv hh
    rw [h1, pyLowerChar, if_neg (by rw [ht]; omega)]
  · have h1 : pyLowerChar c = c := by rw [pyLowerChar, if_neg h]
    simp only [h1]

theorem map_pyLowerChar_idem (l : List Char) :
    (l.map pyLowerChar).map pyLowerChar = l.map pyLowerChar := by
  induction l with
  | nil => rfl
  | cons c cs ih => simp [ih, pyLowerChar_idem]

theorem pyLower_idem (s : String) : pyLower (pyLower s) = pyLower s :=
  congrArg String.mk (map_pyLowerChar_idem s.data)

theorem map_pyLower_idem (l : List String) :
    (l.map pyLower).map pyLower = l.map pyLower := by
  induction l with
  | nil => rfl
  | cons x xs ih => simp [ih, pyLower_idem]

theorem lowercase_mods_path_idem (p : List String) :
    lowercase_mods_path (lowercase_mods_path p) = lowercase_mods_path p := by
  cases p with
  | nil => rfl
  | cons top rest =>
    show top :: (rest.map pyLower).map pyLower = top :: rest.map pyLower
    rw [map_pyLower_idem]

/-- C8 counterexample: for a tree holding a top-level directory Foo with
the file BAR.txt inside it, arma3modtools' pass renames only the file:
the result is Foo/bar.txt, not the foo/bar.txt the claim requires. -/
theorem lowercase_mods_counterexample :
    lowercase_mods [["Foo"], ["Foo", "BAR.txt"]] = [["Foo"], ["Foo", "bar.txt"]] ∧
    lowercase_mods [["Foo"], ["Foo", "BAR.txt"]] ≠ [["foo"], ["foo", "bar.txt"]] := by
  constructor
  · decide
  · decide

/-- C8 amended: both lowercase passes are idempotent; arma3modtools'
pass keeps every top-level name unchanged and lowercases precisely the
deeper components, while a3update's pass lowercases every component —
on the claim's example tree it does produce foo/bar.txt. -/
theorem lowercase_scope_and_idem (fs : List (List String)) :
    lowercase_mods (lowercase_mods fs) = lowercase_mods fs ∧
    lowercase_workshop_dir (lowercase_workshop_dir fs) = lowercase_workshop_dir fs ∧
    (lowercase_mods fs).map (fun p => p.head?) = fs.map (fun p => p.head?) ∧
    ((lowercase_mods fs).all fun p => p.tail.all fun c => pyLower c == c) = true ∧
    ((lowercase_workshop_dir fs).all fun p => p.all fun c => pyLower c == c) = true ∧
    lowercase_workshop_dir [["Foo"], ["Foo", "BAR.txt"]] = [["foo"], ["foo", "bar.txt"]] := by
  refine ⟨?_, ?_, ?_, ?_, ?_, by decide⟩
  · rw [lowercase_mods, lowercase_mods, List.map_map]
    apply List.map_congr_left
    intro p _
    exact lowercase_mods_path_idem p
  · rw [lowercase_workshop_dir, lowercase_workshop_dir, List.map_map]
    apply List.map_congr_left
    intro p _
    exact map_pyLower_idem p
  · rw [lowercase_mods, List.map_map]
    apply List.map_congr_left
    intro p _
    cases p <;> rfl
  · rw [lowercase_mods, List.all_eq_true]
    intro p hp
    rw [List.mem_map] at hp
    obtain ⟨q, hq, rfl⟩ := hp
    rw [List.all_eq_true]
    intro c hc
    cases q with
    | nil => cases hc
    | cons top rest =>
      have hc2 : c ∈ rest.map pyLower := hc
      rw [List.mem_map] at hc2
      obtain ⟨x, hx, rfl⟩ := hc2
      simp [pyLower_idem]
  · rw [lowercase_workshop_dir, List.all_eq_true]
    intro p hp
    rw [List.mem_map] at hp
    obtain ⟨q, hq, rfl⟩ := hp
    rw [List.all_eq_true]
    intro c hc
    rw [List.mem_map] at hc
    obtain ⟨x, hx, rfl⟩ := hc
    simp [pyLower_idem]
